import Mathlib

/-!
Verification of the table integration and aggregation engine of
`src/atlas/tables.py` (the `atlas` pipeline's `merge_tables`, `col_split`,
`get_split_cols` and `count_tables` functions).

A pandas cell is modelled as `Option String` (`none` is a null/NaN); a data
frame as a column header plus positionally aligned rows; the numeric count
column of the aggregation stage as an `Int` carried beside the group-key
cells. Fallible pandas operations (those that raise) return `Option`.
-/

/-- A cell of a data frame: `none` models a pandas null (NaN). -/
abbrev Cell := Option String

/-- A data frame for the expansion/aggregation stage: a column header plus
rows of cells positionally aligned with the header. -/
structure DF where
  cols : List String
  rows : List (List Cell)
deriving DecidableEq

/-- `df[c]` for one row: the value of column `c` in row `r`, the row read
positionally against the header `cols` (`none` when the column is absent, a
case the callers avoid). -/
def getCellD : List String → List Cell → String → Cell
  | [], _, _ => none
  | _ :: _, [], _ => none
  | d :: cols, v :: vs, c => if d == c then v else getCellD cols vs c

/-- `Series.astype(str)` on one cell: a null renders as the literal string
"nan"; a string is unchanged. -/
def astypeStr : Cell → String
  | none => "nan"
  | some s => s

/-- Splitting a character list on a separator character, the way Python's
`str.split(sep)` does for the single-character separators the source uses:
no separator yields one element, `k` separators yield `k + 1` elements
(empty elements included). -/
def splitOnChar (sep : Char) : List Char → List (List Char)
  | [] => [[]]
  | c :: cs =>
    match splitOnChar sep cs with
    | [] => [[]]
    | t :: ts => if c = sep then [] :: t :: ts else (c :: t) :: ts

/-- `str.split(sep)` on a whole string. -/
def splitStr (sep : Char) (s : String) : List String :=
  (splitOnChar sep s.data).map (fun cs => ⟨cs⟩)

/-- `str.strip()`: surrounding whitespace removed. -/
def strTrim (s : String) : String :=
  ⟨((s.data.dropWhile Char.isWhitespace).reverse.dropWhile Char.isWhitespace).reverse⟩

/-- `sep.join(parts)`. -/
def joinSep (sep : Char) : List String → String
  | [] => ""
  | [s] => s
  | s :: rest => s ++ String.singleton sep ++ joinSep sep rest

/-- One cell of `df[c].astype(str).str.split(sep, expand=True).stack().str.strip()`:
the separator-split elements of the string-coerced cell, each stripped of
surrounding whitespace. -/
def splitCell (sep : Char) (v : Cell) : List String :=
  (splitStr sep (astypeStr v)).map strTrim

/-- The values of the non-designated columns of a row, in header order
(`df.drop(cols, axis=1)` applied to one row). -/
def keptVals (cols cs : List String) (r : List Cell) : List Cell :=
  (cols.zip r).filterMap (fun p => if cs.contains p.1 then none else some p.2)

/-- The split lists of the designated columns of one row, in `cs` order. -/
def splitsOfRow (cols cs : List String) (sep : Char) (r : List Cell) :
    List (List String) :=
  cs.map (fun c => splitCell sep (getCellD cols r c))

/-- `pd.concat(col_series, axis=1, keys=cols)` aligns the per-column stacked
series positionally exactly when their (duplicated) row indexes are identical,
i.e. when within each row every designated column splits into the same number
of elements; otherwise pandas raises on reindexing a duplicate axis. -/
def alignedSplits (cols cs : List String) (sep : Char)
    (rows : List (List Cell)) : Bool :=
  rows.all (fun r =>
    (splitsOfRow cols cs sep r).all
      (fun l => l.length == ((splitsOfRow cols cs sep r).headD []).length))

/-- `col_split` of src/atlas/tables.py: expand the designated columns `cs` so
that each row is replaced by one row per split element, the designated columns
advancing together through one shared element index. An empty `cs` or an empty
frame is returned unchanged; `none` models the pandas error when the
designated columns split to different lengths within one row. The output
column order is the non-designated columns followed by `cs`, as produced by
`df.drop(cols, axis=1).join(temp_df)`. -/
def col_split (df : DF) (cs : List String) (sep : Char := '|') : Option DF :=
  if cs.isEmpty || df.rows.isEmpty then some df
  else if alignedSplits df.cols cs sep df.rows then
    some { cols := df.cols.filter (fun c => !cs.contains c) ++ cs,
           rows := df.rows.flatMap (fun r =>
             let splits := splitsOfRow df.cols cs sep r
             (List.range (splits.headD []).length).map (fun i =>
               keptVals df.cols cs r ++ splits.map (fun l => some (l.getD i "")))) }
  else none

/-- `get_split_cols` of src/atlas/tables.py: when neither "contig" nor "orf"
is selected, split "enzyme_name" and "enzyme_ec" together (one `col_split`
call, so they expand as a pair) and then "cazy_ec" on its own (a second,
independent `col_split` call). -/
def get_split_cols (df : DF) (values : List String) : Option DF :=
  if !values.contains "contig" && !values.contains "orf" then
    (if values.contains "enzyme_name" || values.contains "enzyme_ec" then
        col_split df ((if values.contains "enzyme_name" then ["enzyme_name"] else []) ++
                      (if values.contains "enzyme_ec" then ["enzyme_ec"] else []))
      else some df).bind
      (fun d => if values.contains "cazy_ec" then col_split d ["cazy_ec"] else some d)
  else some df

/-- The frame `col_split` produces for a single designated column `c`: each
row is replaced by one row per split element of its `c` cell, the
non-designated values repeated identically, and `c` moved after them. -/
def expandedSingle (df : DF) (c : String) (sep : Char) : DF :=
  { cols := df.cols.filter (fun d => !([c].contains d)) ++ [c],
    rows := df.rows.flatMap (fun r =>
      (splitCell sep (getCellD df.cols r c)).map
        (fun v => keptVals df.cols [c] r ++ [some v])) }

/-- The frame `col_split` produces for the designated pair `[c1, c2]` when
the two columns split to equal lengths within each row: each row is replaced
by one row per shared element index `i`, carrying the `i`-th element of the
`c1` split together with the `i`-th element of the `c2` split. -/
def expandedPair (df : DF) (c1 c2 : String) (sep : Char) : DF :=
  { cols := df.cols.filter (fun d => !([c1, c2].contains d)) ++ [c1, c2],
    rows := df.rows.flatMap (fun r =>
      (List.range (splitCell sep (getCellD df.cols r c1)).length).map (fun i =>
        keptVals df.cols [c1, c2] r ++
          [some ((splitCell sep (getCellD df.cols r c1)).getD i ""),
           some ((splitCell sep (getCellD df.cols r c2)).getD i "")])) }

/-- `DataFrame.dropna(how="any", thresh=n)`: with `thresh` given pandas keeps
exactly the rows having at least `n` non-null values. -/
def dropnaThresh (n : Nat) (rows : List (List Cell)) : List (List Cell) :=
  rows.filter (fun r => n ≤ (r.filter Option.isSome).length)

/-- A row of the selected-plus-count table just before `groupby(...).sum()`:
the group-key cells (the selected columns, `vals[:-1]`) and the count. -/
abbrev GRow := List Cell × Int

/-- The sum of the counts of the rows whose group key equals `k`. -/
def sumCounts (rows : List GRow) (k : List Cell) : Int :=
  ((rows.filter (fun r => r.1 == k)).map Prod.snd).sum

/-- `tdf.groupby(vals[:-1]).sum()`: pandas drops rows whose group key contains
a null and sums the count within each remaining distinct key. The output
order (pandas sorts the group keys) is not modelled; no claim concerns it. -/
def groupbySum (rows : List GRow) : List GRow :=
  (((rows.map Prod.fst).filter (fun k => k.all Option.isSome)).dedup).map
    (fun k => (k, sumCounts rows k))

/-- The count of the output group keyed `k`, when such a group was emitted. -/
def lookupGroup (gs : List GRow) (k : List Cell) : Option Int :=
  (gs.find? (fun g => g.1 == k)).map Prod.snd

/-- `MERGED_HEADER` of src/atlas/tables.py: the known annotation schema. -/
def MERGED_HEADER : List String :=
  ["contig", "orf", "taxonomy", "erfc", "orf_taxonomy",
   "refseq_product", "refseq_evalue", "refseq_bitscore",
   "uniprot_ac", "eggnog_ssid_b", "eggnog_species_id",
   "uniprot_id", "ko_id", "ko_level1_name", "ko_level2_name",
   "ko_level3_id", "ko_level3_name", "ko_gene_symbol",
   "ko_product", "ko_ec", "eggnog_evalue", "eggnog_bitscore",
   "enzyme_ec", "enzyme_name", "cazy_gene", "cazy_family",
   "cazy_class", "cazy_ec", "cog_protein_id", "cog_id",
   "cog_functional_class", "cog_annotation",
   "cog_functional_class_description"]

/-- `[i for i in list(set(vals)) if i in MERGED_HEADER]`: de-duplicate the
requested columns and keep only the known annotation columns. Python's set
iteration order is arbitrary; the claims concern membership and
de-duplication only, and `dedup` fixes one order. -/
def resolveCols (vals : List String) : List String :=
  vals.dedup.filter (fun c => MERGED_HEADER.contains c)

/-- The header of a simple combination's output table: the resolved group-by
columns followed by the appended "count" column (`vals.append("count")`,
`groupby(vals[:-1]).sum()`). -/
def outputHeader (vals : List String) : List String :=
  resolveCols vals ++ ["count"]

/-- Modelled from the spec: `TAX_LEVELS`, the fixed ordered taxonomic rank
vocabulary, broadest to narrowest. The source imports it from the `atlas`
package, which is not among the given sources; the spec gives the order
"domain,phylum,class,..." down to "species". -/
def TAX_LEVELS : List String :=
  ["domain", "phylum", "class", "order", "family", "genus", "species"]

/-- `TAX_LEVELS.index(level) + 1`: the 1-based position of a rank; `none`
models the `ValueError` on which the caller skips the level. -/
def levelIdxOf (level : String) : Option Nat :=
  (TAX_LEVELS.findIdx? (fun l => l == level)).map (fun i => i + 1)

/-- The per-cell taxonomy truncation applied to the "taxonomy" column:
`",".join(x.split(",")[0:level_idx]) if isinstance(x, str) else x`. A `none`
cell models a null or non-string value and passes through unchanged. -/
def truncLineage (levelIdx : Nat) (x : Cell) : Cell :=
  match x with
  | some s => some (joinSep ',' ((splitStr ',' s).take levelIdx))
  | none => none

/-- An annotation table for the merge stage: each row carries the composite
key (contig, orf) read as the index, plus the non-key columns' values
positionally aligned with `cols`. -/
structure ATable where
  cols : List String
  rows : List ((String × String) × List Cell)
deriving DecidableEq

/-- The composite keys of a table, in row order. -/
def keysOf (t : ATable) : List (String × String) := t.rows.map Prod.fst

/-- Every row's value list is aligned with the column header. -/
def ATable.Wf (t : ATable) : Prop := ∀ r ∈ t.rows, r.2.length = t.cols.length

/-- The non-key values of the row keyed `k`, or all nulls when the key is
absent (the null-filling of the outer join). -/
def rowOf (t : ATable) (k : String × String) : List Cell :=
  match t.rows.find? (fun r => r.1 == k) with
  | some r => r.2
  | none => t.cols.map (fun _ => none)

/-- `pd.merge` column disambiguation: a non-key column name shared with the
other side gets this side's suffix ("_x" left, "_y" right); other names are
unchanged. -/
def suffixCols (own other : List String) (sfx : String) : List String :=
  own.map (fun c => if other.contains c then c ++ sfx else c)

/-- The column header of the outer join: the left columns then the right
columns, overlapping names suffixed. -/
def mergedCols (t1 t2 : ATable) : List String :=
  suffixCols t1.cols t2.cols "_x" ++ suffixCols t2.cols t1.cols "_y"

/-- The keys of the outer join: every key of either side, the left side's
first (the result order is not significant; pandas orders by the index
union). -/
def mergedKeys (t1 t2 : ATable) : List (String × String) :=
  keysOf t1 ++ (keysOf t2).filter (fun k => !(keysOf t1).contains k)

/-- One step of `merge_tables`:
`pd.merge(left=ref_df, right=tmp_df, how="outer", left_index=True, right_index=True)`. -/
def outerMerge (t1 t2 : ATable) : ATable :=
  { cols := mergedCols t1 t2,
    rows := (mergedKeys t1 t2).map (fun k => (k, rowOf t1 k ++ rowOf t2 k)) }

/-- `merge_tables` of src/atlas/tables.py: the first table is the accumulator
and every further table is outer-joined onto it. An empty input has no
accumulator (`none`; the source would fail reading `tables[0]`). -/
def merge_tables : List ATable → Option ATable
  | [] => none
  | t :: ts => some (ts.foldl outerMerge t)

/-- The cell of the merged table at key `k`, column `c`. -/
def tcell (t : ATable) (k : String × String) (c : String) : Cell :=
  getCellD t.cols (rowOf t k) c

/-! ### Helper lemmas about row lookup, kept values and expansion -/

theorem getCellD_nil_row (cols : List String) (c : String) :
    getCellD cols [] c = none := by
  cases cols <;> rfl

theorem getCellD_cons (d : String) (cols : List String) (v : Cell) (vs : List Cell)
    (c : String) :
    getCellD (d :: cols) (v :: vs) c = if d == c then v else getCellD cols vs c := rfl

theorem getCellD_append_left {c : String} (l1 l2 : List String) (w1 w2 : List Cell)
    (hc : c ∈ l1) (hl : l1.length = w1.length) :
    getCellD (l1 ++ l2) (w1 ++ w2) c = getCellD l1 w1 c := by
  induction l1 generalizing w1 with
  | nil => simp at hc
  | cons a l1 ih =>
    cases w1 with
    | nil => simp at hl
    | cons v w1 =>
      simp only [List.cons_append, getCellD_cons]
      by_cases hac : (a == c) = true
      · simp [hac]
      · simp only [hac, Bool.false_eq_true, if_false]
        have hc' : c ∈ l1 := by
          rcases List.mem_cons.1 hc with h | h
          · exact absurd (by simp [h]) hac
          · exact h
        exact ih w1 hc' (by simpa using hl)

theorem getCellD_append_right {c : String} (l1 l2 : List String) (w1 w2 : List Cell)
    (hc : c ∉ l1) (hl : l1.length = w1.length) :
    getCellD (l1 ++ l2) (w1 ++ w2) c = getCellD l2 w2 c := by
  induction l1 generalizing w1 with
  | nil =>
    cases w1 with
    | nil => rfl
    | cons v w1 => simp at hl
  | cons a l1 ih =>
    cases w1 with
    | nil => simp at hl
    | cons v w1 =>
      have hac : (a == c) = false := by
        rw [beq_eq_false_iff_ne]
        intro h
        exact hc (by simp [h])
      simp only [List.cons_append, getCellD_cons, hac, Bool.false_eq_true, if_false]
      exact ih w1 (fun h => hc (List.mem_cons_of_mem _ h)) (by simpa using hl)

theorem getCellD_nulls {α : Type} (cols : List String) (l : List α) (c : String) :
    getCellD cols (l.map fun _ => (none : Cell)) c = none := by
  induction cols generalizing l with
  | nil => rfl
  | cons d cols ih =>
    cases l with
    | nil => rfl
    | cons x l =>
      simp only [List.map_cons, getCellD_cons]
      split
      · rfl
      · exact ih l

theorem keptVals_nil_row (cols cs : List String) : keptVals cols cs [] = [] := by
  simp [keptVals]

theorem keptVals_cons (a : String) (cols cs : List String) (v : Cell) (vs : List Cell) :
    keptVals (a :: cols) cs (v :: vs) =
      if cs.contains a then keptVals cols cs vs else v :: keptVals cols cs vs := by
  by_cases h : a ∈ cs
  · simp [keptVals, List.zip_cons_cons, List.filterMap_cons, h]
  · simp [keptVals, List.zip_cons_cons, List.filterMap_cons, h]

theorem keptVals_length (cols cs : List String) (r : List Cell)
    (hl : r.length = cols.length) :
    (keptVals cols cs r).length = (cols.filter (fun d => !cs.contains d)).length := by
  induction cols generalizing r with
  | nil =>
    cases r with
    | nil => rfl
    | cons v vs => simp at hl
  | cons a cols ih =>
    cases r with
    | nil => simp at hl
    | cons v vs =>
      have hl' : vs.length = cols.length := by simpa using hl
      rw [keptVals_cons, List.filter_cons]
      by_cases h : a ∈ cs
      · have h1 : cs.contains a = true := by simpa using h
        rw [if_pos h1, if_neg (by simp [h])]
        exact ih vs hl'
      · have h1 : cs.contains a = false := by simpa using h
        rw [if_neg (by simp [h]), if_pos (by simp [h])]
        simp [ih vs hl']

theorem getCellD_kept (cols cs : List String) (r : List Cell) (col : String)
    (hq : cs.contains col = false) :
    getCellD (cols.filter (fun d => !cs.contains d)) (keptVals cols cs r) col =
      getCellD cols r col := by
  induction cols generalizing r with
  | nil => rfl
  | cons a cols ih =>
    cases r with
    | nil => rw [keptVals_nil_row, getCellD_nil_row, getCellD_nil_row]
    | cons v vs =>
      rw [keptVals_cons, List.filter_cons]
      by_cases h : a ∈ cs
      · have h1 : cs.contains a = true := by simpa using h
        have hac : (a == col) = false := by
          rw [beq_eq_false_iff_ne]
          intro he
          rw [he, hq] at h1
          cases h1
        rw [if_neg (by simpa using h), if_pos h1]
        rw [getCellD_cons, if_neg (by simp [hac])]
        exact ih vs
      · have h1 : cs.contains a = false := by simpa using h
        rw [if_pos (by simpa using h), if_neg (by simpa using h)]
        rw [getCellD_cons, getCellD_cons]
        by_cases hac : (a == col) = true
        · rw [if_pos hac, if_pos hac]
        · rw [if_neg (by simp [hac]), if_neg (by simp [hac])]
          exact ih vs

theorem find?_keyMap {α β : Type} [BEq α] [LawfulBEq α] (l : List α) (f : α → β)
    (k : α) (hk : k ∈ l) :
    (l.map (fun x => (x, f x))).find? (fun g => g.1 == k) = some (k, f k) := by
  induction l with
  | nil => simp at hk
  | cons x xs ih =>
    simp only [List.map_cons, List.find?_cons]
    by_cases hx : (x == k) = true
    · have hxk : x = k := eq_of_beq hx
      subst hxk
      simp
    · simp only [hx]
      have hk' : k ∈ xs := by
        rcases List.mem_cons.1 hk with h | h
        · exact absurd (by simp [h]) hx
        · exact h
      exact ih hk'

theorem range_map_getD {α β : Type} (l : List α) (f : α → β) (d : α) :
    (List.range l.length).map (fun i => f (l.getD i d)) = l.map f := by
  induction l with
  | nil => rfl
  | cons x xs ih =>
    rw [List.length_cons, List.range_succ_eq_map, List.map_cons, List.map_map]
    simp only [List.getD_cons_zero, Function.comp_def, List.getD_cons_succ, List.map_cons]
    rw [ih]

theorem alignedSplits_single (cols : List String) (c : String) (sep : Char)
    (rows : List (List Cell)) :
    alignedSplits cols [c] sep rows = true := by
  simp [alignedSplits, splitsOfRow]

theorem col_split_single_eq (df : DF) (c : String) (sep : Char)
    (hne : df.rows ≠ []) :
    col_split df [c] sep = some (expandedSingle df c sep) := by
  have h1 : (([c] : List String).isEmpty || df.rows.isEmpty) = false := by
    simp [List.isEmpty_eq_false.2 hne]
  have h2 := alignedSplits_single df.cols c sep df.rows
  simp only [col_split, h1, h2, Bool.false_eq_true, if_false, if_true]
  congr 1
  unfold expandedSingle
  congr 1
  congr 1
  funext r
  simp only [splitsOfRow, List.map_cons, List.map_nil, List.headD_cons]
  exact range_map_getD (splitCell sep (getCellD df.cols r c))
    (fun v => keptVals df.cols [c] r ++ [some v]) ""

theorem col_split_pair_eq (df : DF) (c1 c2 : String) (sep : Char)
    (hne : df.rows ≠ [])
    (hal : alignedSplits df.cols [c1, c2] sep df.rows = true) :
    col_split df [c1, c2] sep = some (expandedPair df c1 c2 sep) := by
  have h1 : (([c1, c2] : List String).isEmpty || df.rows.isEmpty) = false := by
    simp [List.isEmpty_eq_false.2 hne]
  simp only [col_split, h1, hal, Bool.false_eq_true, if_false, if_true]
  rfl

/-! ### Helper lemmas about the outer-join merge -/

theorem suffixCols_cons (a : String) (own other : List String) (sfx : String) :
    suffixCols (a :: own) other sfx =
      (if other.contains a then a ++ sfx else a) :: suffixCols own other sfx := rfl

theorem suffixCols_length (own other : List String) (sfx : String) :
    (suffixCols own other sfx).length = own.length := List.length_map _ _

theorem mem_suffixCols_overlap (own other : List String) (sfx c : String)
    (hc : c ∈ own) (hco : other.contains c = true) :
    c ++ sfx ∈ suffixCols own other sfx := by
  have hm : c ∈ other := by simpa using hco
  have : c ++ sfx = (if other.contains c then c ++ sfx else c) := by simp [hm]
  rw [this]
  exact List.mem_map_of_mem _ hc

theorem mem_suffixCols_plain (own other : List String) (sfx c : String)
    (hc : c ∈ own) (hco : other.contains c = false) :
    c ∈ suffixCols own other sfx := by
  have hm : c ∉ other := by simpa using hco
  have : c = (if other.contains c then c ++ sfx else c) := by simp [hm]
  rw [this]
  exact List.mem_map_of_mem _ hc

theorem getCellD_suffixCols (own other : List String) (sfx c : String) (w : List Cell)
    (hc : c ∈ own) (hco : other.contains c = true)
    (hnd : (suffixCols own other sfx).Nodup) :
    getCellD (suffixCols own other sfx) w (c ++ sfx) = getCellD own w c := by
  induction own generalizing w with
  | nil => simp at hc
  | cons a own ih =>
    rw [suffixCols_cons] at hnd ⊢
    cases w with
    | nil => rw [getCellD_nil_row, getCellD_nil_row]
    | cons v vs =>
      rw [getCellD_cons, getCellD_cons]
      by_cases hac : a = c
      · subst hac
        rw [hco]
        simp
      · have h1 : (a == c) = false := by simp [hac]
        have hcown : c ∈ own := by
          rcases List.mem_cons.1 hc with h | h
          · exact absurd h.symm hac
          · exact h
        have h2 : ((if other.contains a then a ++ sfx else a) == c ++ sfx) = false := by
          rw [beq_eq_false_iff_ne]
          intro heq
          have hmem : c ++ sfx ∈ suffixCols own other sfx :=
            mem_suffixCols_overlap own other sfx c hcown hco
          rw [heq] at hnd
          exact (List.nodup_cons.1 hnd).1 hmem
        rw [h1, h2]
        simp only [Bool.false_eq_true, if_false]
        exact ih vs hcown (List.nodup_cons.1 hnd).2

theorem keysOf_outerMerge (t1 t2 : ATable) :
    keysOf (outerMerge t1 t2) = mergedKeys t1 t2 := by
  simp [keysOf, outerMerge, List.map_map, Function.comp_def]

theorem mem_mergedKeys (t1 t2 : ATable) (k : String × String) :
    k ∈ mergedKeys t1 t2 ↔ k ∈ keysOf t1 ∨ k ∈ keysOf t2 := by
  simp only [mergedKeys, List.mem_append, List.mem_filter]
  constructor
  · rintro (h | ⟨h, _⟩)
    · exact Or.inl h
    · exact Or.inr h
  · rintro (h | h)
    · exact Or.inl h
    · by_cases h1 : k ∈ keysOf t1
      · exact Or.inl h1
      · exact Or.inr ⟨h, by simpa using h1⟩

theorem nodup_mergedKeys (t1 t2 : ATable) (h1 : (keysOf t1).Nodup)
    (h2 : (keysOf t2).Nodup) : (mergedKeys t1 t2).Nodup := by
  refine List.Nodup.append h1 (h2.filter _) ?_
  rw [List.disjoint_left]
  intro k hk hk2
  have := (List.mem_filter.1 hk2).2
  simp at this
  exact this hk

theorem rowOf_mem_keys_length (t : ATable) (k : String × String) (hwf : t.Wf) :
    (rowOf t k).length = t.cols.length := by
  unfold rowOf
  cases h : t.rows.find? (fun r => r.1 == k) with
  | none => simp
  | some r => exact hwf r (List.mem_of_find?_eq_some h)

theorem rowOf_not_mem (t : ATable) (k : String × String) (hk : k ∉ keysOf t) :
    rowOf t k = t.cols.map (fun _ => none) := by
  unfold rowOf
  cases h : t.rows.find? (fun r => r.1 == k) with
  | none => rfl
  | some r =>
    exfalso
    have hr := List.mem_of_find?_eq_some h
    have hp := List.find?_some h
    have : r.1 = k := by simpa using hp
    exact hk (this ▸ List.mem_map_of_mem Prod.fst hr)

theorem rowOf_outerMerge (t1 t2 : ATable) (k : String × String)
    (hk : k ∈ mergedKeys t1 t2) :
    rowOf (outerMerge t1 t2) k = rowOf t1 k ++ rowOf t2 k := by
  unfold rowOf outerMerge
  simp only
  rw [find?_keyMap (mergedKeys t1 t2) (fun k => rowOf t1 k ++ rowOf t2 k) k hk]
  rfl

theorem foldl_outerMerge_keys (ts : List ATable) (acc : ATable)
    (hacc : (keysOf acc).Nodup) (hts : ∀ t ∈ ts, (keysOf t).Nodup) :
    (keysOf (ts.foldl outerMerge acc)).Nodup ∧
      (∀ k, k ∈ keysOf (ts.foldl outerMerge acc) ↔
        k ∈ keysOf acc ∨ ∃ t ∈ ts, k ∈ keysOf t) := by
  induction ts generalizing acc with
  | nil => exact ⟨hacc, by simp⟩
  | cons t ts ih =>
    have ht : (keysOf t).Nodup := hts t (by simp)
    have hts' : ∀ u ∈ ts, (keysOf u).Nodup := fun u hu => hts u (by simp [hu])
    have hstep : (keysOf (outerMerge acc t)).Nodup := by
      rw [keysOf_outerMerge]
      exact nodup_mergedKeys acc t hacc ht
    obtain ⟨hn, hm⟩ := ih (outerMerge acc t) hstep hts'
    refine ⟨hn, fun k => ?_⟩
    rw [List.foldl_cons] at *
    rw [hm k, keysOf_outerMerge, mem_mergedKeys]
    constructor
    · rintro ((h | h) | ⟨u, hu, h⟩)
      · exact Or.inl h
      · exact Or.inr ⟨t, by simp, h⟩
      · exact Or.inr ⟨u, by simp [hu], h⟩
    · rintro (h | ⟨u, hu, h⟩)
      · exact Or.inl (Or.inl h)
      · rcases List.mem_cons.1 hu with rfl | hu'
        · exact Or.inl (Or.inr h)
        · exact Or.inr ⟨u, hu', h⟩

/-! ### Claims -/

/-- C3: in CombinationAggregator's row-filtering step
(`tdf.dropna(how="any", thresh=2)` over the selected-plus-count columns), a
row is retained if and only if it has at least two non-null values among
those columns: no row with at least two non-null values is dropped, and
every row with fewer than two is dropped. -/
theorem claim_C3_dropna_thresh2 (rows : List (List Cell)) (r : List Cell) :
    r ∈ dropnaThresh 2 rows ↔ r ∈ rows ∧ 2 ≤ (r.filter Option.isSome).length := by
  simp [dropnaThresh, List.mem_filter]

/-- C8: requested combination columns not in the known annotation schema are
discarded (without aborting: resolution is total) and duplicates are
de-duplicated; concretely, requesting "bogus_field" alongside "ko_id" groups
only by "ko_id" and "bogus_field" is absent from the output header. -/
theorem claim_C8_unknown_columns_dropped :
    (∀ vals : List String, (resolveCols vals).Nodup ∧
      ∀ c, c ∈ resolveCols vals ↔ c ∈ vals ∧ c ∈ MERGED_HEADER) ∧
    outputHeader ["ko_id", "bogus_field"] = ["ko_id", "count"] ∧
    "bogus_field" ∉ outputHeader ["ko_id", "bogus_field"] := by
  refine ⟨fun vals => ⟨(List.nodup_dedup vals).filter _, fun c => ?_⟩, by decide, by decide⟩
  simp [resolveCols, List.mem_filter, List.mem_dedup]

/-- C6: for a known rank at 1-based position `p` in the rank vocabulary, the
derived taxonomy value of a non-null string lineage is the comma-joined
prefix of its first `p` comma-separated elements, and a null or non-string
lineage passes through unchanged (no error: the truncation is total). -/
theorem claim_C6_taxonomy_truncation (level : String) (p : Nat)
    (hp : levelIdxOf level = some p) :
    (∃ i, TAX_LEVELS.findIdx? (fun l => l == level) = some i ∧ p = i + 1) ∧
    (∀ s : String, truncLineage p (some s) =
      some (joinSep ',' ((splitStr ',' s).take p))) ∧
    truncLineage p none = none := by
  refine ⟨?_, fun s => rfl, rfl⟩
  unfold levelIdxOf at hp
  cases h : TAX_LEVELS.findIdx? (fun l => l == level) with
  | none => rw [h] at hp; cases hp
  | some i =>
    rw [h] at hp
    exact ⟨i, rfl, by simpa using hp.symm⟩

/-- Witness for C6 at the spec's end-to-end scenario: rank "phylum" on
lineage "Bacteria,Proteobacteria,Gammaproteobacteria". -/
theorem claim_C6_taxonomy_truncation_witness :
    truncLineage 2 (some "Bacteria,Proteobacteria,Gammaproteobacteria") =
      some "Bacteria,Proteobacteria" := by
  have h := claim_C6_taxonomy_truncation "phylum" 2 (by decide)
  exact (h.2.1 "Bacteria,Proteobacteria,Gammaproteobacteria").trans (by decide)

/-- C2: for every group of rows sharing identical (fully non-null) values in
all group-by columns, the "count" of that group's output row equals the
arithmetic sum of the counts of all rows in the group. -/
theorem claim_C2_grouped_sum (rows : List GRow) (k : List Cell)
    (hk : k ∈ rows.map Prod.fst) (hns : k.all Option.isSome = true) :
    lookupGroup (groupbySum rows) k = some (sumCounts rows k) := by
  unfold lookupGroup groupbySum
  have hmem : k ∈ ((rows.map Prod.fst).filter (fun k => k.all Option.isSome)).dedup :=
    List.mem_dedup.2 (List.mem_filter.2 ⟨hk, hns⟩)
  rw [find?_keyMap _ (sumCounts rows) k hmem]
  rfl

/-- Witness for C2 at the spec's end-to-end scenario: counts 50 and 22 both
keyed "K00784" produce the single group value 72. -/
theorem claim_C2_grouped_sum_witness :
    lookupGroup (groupbySum [([some "K00784"], 50), ([some "K00784"], 22)])
      [some "K00784"] = some 72 := by
  have h := claim_C2_grouped_sum [([some "K00784"], 50), ([some "K00784"], 22)]
    [some "K00784"] (by decide) (by decide)
  exact h.trans (by decide)

/-- C9: when a combination's selected columns include "contig" or "orf",
`get_split_cols` performs no one-to-many expansion at all: the frame is
returned unchanged, even when enzyme_name, enzyme_ec or cazy_ec are also
selected. -/
theorem claim_C9_key_columns_suppress_split (df : DF) (values : List String)
    (h : "contig" ∈ values ∨ "orf" ∈ values) :
    get_split_cols df values = some df := by
  unfold get_split_cols
  have hc : (!values.contains "contig" && !values.contains "orf") = false := by
    rcases h with h | h
    · simp [h]
    · simp [h]
  rw [hc]
  simp

/-- Witness for C9: a frame with a splittable enzyme_name cell passes through
unchanged because "contig" is among the selected columns. -/
theorem claim_C9_key_columns_suppress_split_witness :
    get_split_cols ⟨["enzyme_name"], [[some "a|b"]]⟩ ["contig", "enzyme_name"] =
      some ⟨["enzyme_name"], [[some "a|b"]]⟩ :=
  claim_C9_key_columns_suppress_split _ _ (Or.inl (by decide))

theorem getCellD_not_mem (cols : List String) (r : List Cell) (col : String)
    (h : col ∉ cols) : getCellD cols r col = none := by
  induction cols generalizing r with
  | nil => rfl
  | cons d cols ih =>
    cases r with
    | nil => rw [getCellD_nil_row]
    | cons v vs =>
      have hd : (d == col) = false := by
        rw [beq_eq_false_iff_ne]
        intro he
        exact h (by simp [he])
      rw [getCellD_cons, hd]
      simp only [Bool.false_eq_true, if_false]
      exact ih vs (fun hm => h (List.mem_cons_of_mem _ hm))

/-- C10: expansion coerces a designated column to string before splitting, so
a null cell becomes the literal string "nan" in the expanded frame, and the
group-by stage then treats it as an ordinary group-key value (a fully
non-null key is grouped and emitted, while keys containing a real null are
never emitted). -/
theorem claim_C10_null_becomes_nan (df df' : DF) (c : String) (r : List Cell)
    (hr : r ∈ df.rows) (hc : getCellD df.cols r c = none)
    (hs : col_split df [c] '|' = some df') :
    splitCell '|' none = ["nan"] ∧
    keptVals df.cols [c] r ++ [some "nan"] ∈ df'.rows ∧
    (∀ (rows : List GRow) (k : List Cell), k ∈ (groupbySum rows).map Prod.fst →
      k.all Option.isSome = true) ∧
    (∀ (rows : List GRow) (k : List Cell), k ∈ rows.map Prod.fst →
      k.all Option.isSome = true → k ∈ (groupbySum rows).map Prod.fst) := by
  have hne : df.rows ≠ [] := by
    intro h
    rw [h] at hr
    cases hr
  rw [col_split_single_eq df c '|' hne] at hs
  have hdf : df' = expandedSingle df c '|' := (Option.some.inj hs).symm
  refine ⟨rfl, ?_, ?_, ?_⟩
  · rw [hdf]
    show _ ∈ (expandedSingle df c '|').rows
    unfold expandedSingle
    rw [List.mem_flatMap]
    refine ⟨r, hr, ?_⟩
    rw [hc]
    have hnan : splitCell '|' none = ["nan"] := rfl
    rw [hnan]
    simp
  · intro rows k hk
    unfold groupbySum at hk
    rw [List.mem_map] at hk
    obtain ⟨g, hg, hfst⟩ := hk
    rw [List.mem_map] at hg
    obtain ⟨k1, hk1, rfl⟩ := hg
    cases hfst
    exact (List.mem_filter.1 (List.mem_dedup.1 hk1)).2
  · intro rows k hk hns
    unfold groupbySum
    rw [List.mem_map]
    refine ⟨(k, sumCounts rows k), ?_, rfl⟩
    rw [List.mem_map]
    exact ⟨k, List.mem_dedup.2 (List.mem_filter.2 ⟨hk, hns⟩), rfl⟩

/-- Witness for C10: a null cazy_ec cell expands to the literal "nan". -/
theorem claim_C10_null_becomes_nan_witness :
    splitCell '|' none = ["nan"] ∧
    keptVals ["ko_id", "cazy_ec"] ["cazy_ec"] [some "K1", none] ++ [some "nan"] ∈
      (DF.mk ["ko_id", "cazy_ec"] [[some "K1", some "nan"]]).rows ∧
    (∀ (rows : List GRow) (k : List Cell), k ∈ (groupbySum rows).map Prod.fst →
      k.all Option.isSome = true) ∧
    (∀ (rows : List GRow) (k : List Cell), k ∈ rows.map Prod.fst →
      k.all Option.isSome = true → k ∈ (groupbySum rows).map Prod.fst) :=
  claim_C10_null_becomes_nan ⟨["ko_id", "cazy_ec"], [[some "K1", none]]⟩
    ⟨["ko_id", "cazy_ec"], [[some "K1", some "nan"]]⟩ "cazy_ec" [some "K1", none]
    (by decide) (by decide) (by decide)

/-- C4: for a non-empty frame and a single designated column, `col_split`
replaces each row by exactly one row per separator-joined element of its
designated cell (`expandedSingle`: one output row per element of
`splitCell`, each element whitespace-stripped, the non-designated values
`keptVals` repeated identically); and a cell holding one single,
already-stripped, separator-free element yields exactly the one original row
(every column of the produced row looks up to the original row's value). -/
theorem claim_C4_field_expander_single (df : DF) (c : String) (sep : Char)
    (hne : df.rows ≠ []) (hwf : ∀ r ∈ df.rows, r.length = df.cols.length) :
    col_split df [c] sep = some (expandedSingle df c sep) ∧
    (∀ x : Cell, splitCell sep x = (splitStr sep (astypeStr x)).map strTrim) ∧
    (∀ r s, r ∈ df.rows → getCellD df.cols r c = some s →
      splitStr sep s = [s] → strTrim s = s →
      (splitCell sep (getCellD df.cols r c)).map
          (fun v => keptVals df.cols [c] r ++ [some v]) =
        [keptVals df.cols [c] r ++ [some s]] ∧
      (∀ col, getCellD (expandedSingle df c sep).cols
          (keptVals df.cols [c] r ++ [some s]) col = getCellD df.cols r col)) := by
  refine ⟨col_split_single_eq df c sep hne, fun x => rfl, ?_⟩
  intro r s hr hcell hsplit htrim
  have h1 : splitCell sep (getCellD df.cols r c) = [s] := by
    rw [hcell]
    unfold splitCell astypeStr
    rw [hsplit]
    simp [htrim]
  refine ⟨by rw [h1]; rfl, ?_⟩
  intro col
  have hlen : (df.cols.filter (fun d => !([c] : List String).contains d)).length =
      (keptVals df.cols [c] r).length :=
    (keptVals_length df.cols [c] r (hwf r hr)).symm
  show getCellD (df.cols.filter (fun d => !([c] : List String).contains d) ++ [c])
      (keptVals df.cols [c] r ++ [some s]) col = getCellD df.cols r col
  by_cases hcol : col = c
  · rw [hcol]
    have hnot : c ∉ df.cols.filter (fun d => !([c] : List String).contains d) := by
      intro hmem
      have h2 := (List.mem_filter.1 hmem).2
      simp at h2
    rw [getCellD_append_right _ _ _ _ hnot hlen]
    rw [getCellD_cons]
    simp [hcell]
  · by_cases hmem : col ∈ df.cols
    · have hmemf : col ∈ df.cols.filter (fun d => !([c] : List String).contains d) :=
        List.mem_filter.2 ⟨hmem, by simp [hcol]⟩
      rw [getCellD_append_left _ _ _ _ hmemf hlen]
      exact getCellD_kept df.cols [c] r col (by simp [hcol])
    · have hl : getCellD (df.cols.filter (fun d => !([c] : List String).contains d) ++ [c])
          (keptVals df.cols [c] r ++ [some s]) col = none := by
        apply getCellD_not_mem
        intro hmem2
        rcases List.mem_append.1 hmem2 with h | h
        · exact hmem (List.mem_filter.1 h).1
        · simp at h
          exact hcol h
      rw [hl, getCellD_not_mem df.cols r col hmem]

/-- Witness for C4: the cell "a|b" expands to two rows with the "k" value
repeated, and the separator-free row ["K2", "cc"] is reproduced unchanged. -/
theorem claim_C4_field_expander_single_witness :
    col_split ⟨["k", "e"], [[some "K1", some "a|b"], [some "K2", some "cc"]]⟩ ["e"] '|' =
      some ⟨["k", "e"],
        [[some "K1", some "a"], [some "K1", some "b"], [some "K2", some "cc"]]⟩ ∧
    (splitCell '|' (getCellD ["k", "e"] [some "K2", some "cc"] "e")).map
        (fun v => keptVals ["k", "e"] ["e"] [some "K2", some "cc"] ++ [some v]) =
      [[some "K2", some "cc"]] ∧
    (∀ col, getCellD ["k", "e"] [some "K2", some "cc"] col =
      getCellD ["k", "e"] [some "K2", some "cc"] col) := by
  have h := claim_C4_field_expander_single
    ⟨["k", "e"], [[some "K1", some "a|b"], [some "K2", some "cc"]]⟩ "e" '|'
    (by decide) (by decide)
  have h3 := h.2.2 [some "K2", some "cc"] "cc" (by decide) (by decide) (by decide) (by decide)
  exact ⟨h.1.trans (by decide), h3.1.trans (by decide), fun col => rfl⟩

/-- C5: when a combination selects both enzyme_name and enzyme_ec (and
neither contig nor orf), the two columns are expanded by one shared
`col_split` call as a paired group on one element index (`expandedPair`: the
i-th enzyme_name element stays on the row of the i-th enzyme_ec element, not
a cross product), while a selected cazy_ec column is expanded by a separate,
independent `col_split` call applied to the already pair-expanded frame. -/
theorem claim_C5_paired_enzyme_split (df : DF) (values : List String)
    (hcn : "contig" ∉ values) (hco : "orf" ∉ values)
    (hen : "enzyme_name" ∈ values) (hec : "enzyme_ec" ∈ values)
    (hca : "cazy_ec" ∈ values)
    (hne : df.rows ≠ [])
    (hal : alignedSplits df.cols ["enzyme_name", "enzyme_ec"] '|' df.rows = true)
    (hpne : (expandedPair df "enzyme_name" "enzyme_ec" '|').rows ≠ []) :
    get_split_cols df values =
      (col_split df ["enzyme_name", "enzyme_ec"] '|').bind
        (fun d => col_split d ["cazy_ec"] '|') ∧
    col_split df ["enzyme_name", "enzyme_ec"] '|' =
      some (expandedPair df "enzyme_name" "enzyme_ec" '|') ∧
    get_split_cols df values =
      some (expandedSingle (expandedPair df "enzyme_name" "enzyme_ec" '|') "cazy_ec" '|') := by
  have h1 : get_split_cols df values =
      (col_split df ["enzyme_name", "enzyme_ec"] '|').bind
        (fun d => col_split d ["cazy_ec"] '|') := by
    unfold get_split_cols
    simp [hcn, hco, hen, hec, hca]
  have h2 := col_split_pair_eq df "enzyme_name" "enzyme_ec" '|' hne hal
  refine ⟨h1, h2, ?_⟩
  rw [h1, h2, Option.some_bind]
  exact col_split_single_eq _ "cazy_ec" '|' hpne

/-- Witness for C5: one row with enzyme_name "n1|n2" and enzyme_ec "1.1|2.2"
pairs n1 with 1.1 and n2 with 2.2 (no 4-way enzyme cross product), after
which cazy_ec "C1|C2" duplicates each paired row. -/
theorem claim_C5_paired_enzyme_split_witness :
    get_split_cols ⟨["enzyme_name", "enzyme_ec", "cazy_ec"],
        [[some "n1|n2", some "1.1|2.2", some "C1|C2"]]⟩
      ["enzyme_name", "enzyme_ec", "cazy_ec"] =
      some ⟨["enzyme_name", "enzyme_ec", "cazy_ec"],
        [[some "n1", some "1.1", some "C1"],
         [some "n1", some "1.1", some "C2"],
         [some "n2", some "2.2", some "C1"],
         [some "n2", some "2.2", some "C2"]]⟩ := by
  have h := claim_C5_paired_enzyme_split
    ⟨["enzyme_name", "enzyme_ec", "cazy_ec"],
      [[some "n1|n2", some "1.1|2.2", some "C1|C2"]]⟩
    ["enzyme_name", "enzyme_ec", "cazy_ec"]
    (by decide) (by decide) (by decide) (by decide) (by decide)
    (by decide) (by decide) (by decide)
  exact h.2.2.trans (by decide)

/-- C7: when both merged tables define a non-key column with the same name
`c`, the outer join of `merge_tables` disambiguates deterministically by
suffixing: the output carries both a `c_x` and a `c_y` column, the left
table's values under `c_x` and the right table's under `c_y`, so neither
side's values silently overwrite the other's. -/
theorem claim_C7_overlap_suffixed (t1 t2 : ATable) (c : String)
    (k1 k2 : String × String)
    (hwf1 : t1.Wf) (hnd : (mergedCols t1 t2).Nodup)
    (hc1 : c ∈ t1.cols) (hc2 : c ∈ t2.cols)
    (hk1 : k1 ∈ keysOf t1) (hk2 : k2 ∈ keysOf t2) :
    (c ++ "_x") ∈ (outerMerge t1 t2).cols ∧
    (c ++ "_y") ∈ (outerMerge t1 t2).cols ∧
    tcell (outerMerge t1 t2) k1 (c ++ "_x") = tcell t1 k1 c ∧
    tcell (outerMerge t1 t2) k2 (c ++ "_y") = tcell t2 k2 c := by
  have hcb1 : t1.cols.contains c = true := by simpa using hc1
  have hcb2 : t2.cols.contains c = true := by simpa using hc2
  have hx : (c ++ "_x") ∈ suffixCols t1.cols t2.cols "_x" :=
    mem_suffixCols_overlap t1.cols t2.cols "_x" c hc1 hcb2
  have hy : (c ++ "_y") ∈ suffixCols t2.cols t1.cols "_y" :=
    mem_suffixCols_overlap t2.cols t1.cols "_y" c hc2 hcb1
  obtain ⟨hnd1, hnd2, hdisj⟩ := List.nodup_append.1 hnd
  have hk1m : k1 ∈ mergedKeys t1 t2 := (mem_mergedKeys t1 t2 k1).2 (Or.inl hk1)
  have hk2m : k2 ∈ mergedKeys t1 t2 := (mem_mergedKeys t1 t2 k2).2 (Or.inr hk2)
  have hlen1 : (suffixCols t1.cols t2.cols "_x").length = (rowOf t1 k1).length := by
    rw [suffixCols_length, rowOf_mem_keys_length t1 k1 hwf1]
  have hlen2 : (suffixCols t1.cols t2.cols "_x").length = (rowOf t1 k2).length := by
    rw [suffixCols_length, rowOf_mem_keys_length t1 k2 hwf1]
  refine ⟨List.mem_append.2 (Or.inl hx), List.mem_append.2 (Or.inr hy), ?_, ?_⟩
  · show getCellD (mergedCols t1 t2) (rowOf (outerMerge t1 t2) k1) (c ++ "_x") = _
    rw [rowOf_outerMerge t1 t2 k1 hk1m]
    unfold mergedCols
    rw [getCellD_append_left _ _ _ _ hx hlen1]
    exact getCellD_suffixCols t1.cols t2.cols "_x" c (rowOf t1 k1) hc1 hcb2 hnd1
  · show getCellD (mergedCols t1 t2) (rowOf (outerMerge t1 t2) k2) (c ++ "_y") = _
    rw [rowOf_outerMerge t1 t2 k2 hk2m]
    unfold mergedCols
    have hynot : (c ++ "_y") ∉ suffixCols t1.cols t2.cols "_x" := by
      intro hmem
      exact (List.disjoint_left.1 hdisj hmem) hy
    rw [getCellD_append_right _ _ _ _ hynot hlen2]
    exact getCellD_suffixCols t2.cols t1.cols "_y" c (rowOf t2 k2) hc2 hcb1 hnd2

/-- Witness for C7: both tables carry a column "p" for the same key; the
merge keeps the left value "v1" under "p_x" and the right value "v2" under
"p_y". -/
theorem claim_C7_overlap_suffixed_witness :
    ("p_x" : String) ∈ (outerMerge ⟨["p"], [(("c1", "o1"), [some "v1"])]⟩
        ⟨["p"], [(("c1", "o1"), [some "v2"])]⟩).cols ∧
    ("p_y" : String) ∈ (outerMerge ⟨["p"], [(("c1", "o1"), [some "v1"])]⟩
        ⟨["p"], [(("c1", "o1"), [some "v2"])]⟩).cols ∧
    tcell (outerMerge ⟨["p"], [(("c1", "o1"), [some "v1"])]⟩
        ⟨["p"], [(("c1", "o1"), [some "v2"])]⟩) ("c1", "o1") "p_x" =
      tcell ⟨["p"], [(("c1", "o1"), [some "v1"])]⟩ ("c1", "o1") "p" ∧
    tcell (outerMerge ⟨["p"], [(("c1", "o1"), [some "v1"])]⟩
        ⟨["p"], [(("c1", "o1"), [some "v2"])]⟩) ("c1", "o1") "p_y" =
      tcell ⟨["p"], [(("c1", "o1"), [some "v2"])]⟩ ("c1", "o1") "p" :=
  claim_C7_overlap_suffixed ⟨["p"], [(("c1", "o1"), [some "v1"])]⟩
    ⟨["p"], [(("c1", "o1"), [some "v2"])]⟩ "p" ("c1", "o1") ("c1", "o1")
    (by unfold ATable.Wf; decide) (by decide) (by decide) (by decide) (by decide) (by decide)

/-- C1: for a sequence of annotation tables whose composite keys are unique
within each table, `merge_tables` produces a table in which every composite
key present in at least one input appears exactly once (the key list has no
duplicates and contains exactly the union of the inputs' keys); and in one
outer-join step, a column contributed by only one side is null on a row
originating only from the other side (stated for both sides). -/
theorem claim_C1_outer_join_keys_and_nulls (ts : List ATable) (m : ATable)
    (t1 t2 : ATable) (c1 c2 : String) (k1 k2 : String × String)
    (hm : merge_tables ts = some m)
    (hu : ∀ t ∈ ts, (keysOf t).Nodup)
    (hwf1 : t1.Wf) (hnd : (mergedCols t1 t2).Nodup)
    (hc2 : c2 ∈ t2.cols) (hc2n : c2 ∉ t1.cols)
    (hk1 : k1 ∈ keysOf t1) (hk1n : k1 ∉ keysOf t2)
    (hc1 : c1 ∈ t1.cols) (hc1n : c1 ∉ t2.cols)
    (hk2 : k2 ∈ keysOf t2) (hk2n : k2 ∉ keysOf t1) :
    ((keysOf m).Nodup ∧ ∀ k, k ∈ keysOf m ↔ ∃ t ∈ ts, k ∈ keysOf t) ∧
    tcell (outerMerge t1 t2) k1 c2 = none ∧
    tcell (outerMerge t1 t2) k2 c1 = none := by
  obtain ⟨hnd1, hnd2, hdisj⟩ := List.nodup_append.1 hnd
  refine ⟨?_, ?_, ?_⟩
  · cases ts with
    | nil => cases hm
    | cons t rest =>
      have hmm : m = rest.foldl outerMerge t := (Option.some.inj hm).symm
      subst hmm
      obtain ⟨hn, hmem⟩ := foldl_outerMerge_keys rest t (hu t (by simp))
        (fun u hu2 => hu u (by simp [hu2]))
      refine ⟨hn, fun k => ?_⟩
      rw [hmem k]
      constructor
      · rintro (h | ⟨u, hu2, h⟩)
        · exact ⟨t, by simp, h⟩
        · exact ⟨u, by simp [hu2], h⟩
      · rintro ⟨u, hu2, h⟩
        rcases List.mem_cons.1 hu2 with rfl | hu3
        · exact Or.inl h
        · exact Or.inr ⟨u, hu3, h⟩
  · have hk1m : k1 ∈ mergedKeys t1 t2 := (mem_mergedKeys t1 t2 k1).2 (Or.inl hk1)
    show getCellD (mergedCols t1 t2) (rowOf (outerMerge t1 t2) k1) c2 = none
    rw [rowOf_outerMerge t1 t2 k1 hk1m]
    unfold mergedCols
    have hc2m : c2 ∈ suffixCols t2.cols t1.cols "_y" := by
      apply mem_suffixCols_plain t2.cols t1.cols "_y" c2 hc2
      simpa using hc2n
    have hc2not : c2 ∉ suffixCols t1.cols t2.cols "_x" := by
      intro hmem2
      exact (List.disjoint_left.1 hdisj hmem2) hc2m
    have hlen : (suffixCols t1.cols t2.cols "_x").length = (rowOf t1 k1).length := by
      rw [suffixCols_length, rowOf_mem_keys_length t1 k1 hwf1]
    rw [getCellD_append_right _ _ _ _ hc2not hlen]
    rw [rowOf_not_mem t2 k1 hk1n]
    exact getCellD_nulls _ _ _
  · have hk2m : k2 ∈ mergedKeys t1 t2 := (mem_mergedKeys t1 t2 k2).2 (Or.inr hk2)
    show getCellD (mergedCols t1 t2) (rowOf (outerMerge t1 t2) k2) c1 = none
    rw [rowOf_outerMerge t1 t2 k2 hk2m]
    unfold mergedCols
    have hc1m : c1 ∈ suffixCols t1.cols t2.cols "_x" := by
      apply mem_suffixCols_plain t1.cols t2.cols "_x" c1 hc1
      simpa using hc1n
    have hlen : (suffixCols t1.cols t2.cols "_x").length = (rowOf t1 k2).length := by
      rw [suffixCols_length, rowOf_mem_keys_length t1 k2 hwf1]
    rw [getCellD_append_left _ _ _ _ hc1m hlen]
    rw [rowOf_not_mem t1 k2 hk2n]
    exact getCellD_nulls _ _ _

/-- Witness for C1: merging two single-row tables with distinct keys and
distinct columns yields both keys exactly once, with the other side's column
null on each. -/
theorem claim_C1_outer_join_keys_and_nulls_witness :
    ((keysOf (outerMerge ⟨["a"], [(("c1", "o1"), [some "v"])]⟩
        ⟨["b"], [(("c2", "o2"), [some "w"])]⟩)).Nodup ∧
      ∀ k, k ∈ keysOf (outerMerge ⟨["a"], [(("c1", "o1"), [some "v"])]⟩
          ⟨["b"], [(("c2", "o2"), [some "w"])]⟩) ↔
        ∃ t ∈ [(⟨["a"], [(("c1", "o1"), [some "v"])]⟩ : ATable),
               ⟨["b"], [(("c2", "o2"), [some "w"])]⟩], k ∈ keysOf t) ∧
    tcell (outerMerge ⟨["a"], [(("c1", "o1"), [some "v"])]⟩
        ⟨["b"], [(("c2", "o2"), [some "w"])]⟩) ("c1", "o1") "b" = none ∧
    tcell (outerMerge ⟨["a"], [(("c1", "o1"), [some "v"])]⟩
        ⟨["b"], [(("c2", "o2"), [some "w"])]⟩) ("c2", "o2") "a" = none :=
  claim_C1_outer_join_keys_and_nulls
    [⟨["a"], [(("c1", "o1"), [some "v"])]⟩, ⟨["b"], [(("c2", "o2"), [some "w"])]⟩]
    (outerMerge ⟨["a"], [(("c1", "o1"), [some "v"])]⟩
      ⟨["b"], [(("c2", "o2"), [some "w"])]⟩)
    ⟨["a"], [(("c1", "o1"), [some "v"])]⟩ ⟨["b"], [(("c2", "o2"), [some "w"])]⟩
    "a" "b" ("c1", "o1") ("c2", "o2")
    rfl (by decide) (by unfold ATable.Wf; decide) (by decide)
    (by decide) (by decide) (by decide) (by decide)
    (by decide) (by decide) (by decide) (by decide)
